import Mathlib

/-
Verification of the `ash-destructor` derive macro (src/derive/src/lib.rs).

The program is a build-time code generator: given a struct's field list,
where each field may carry `#[destroy_ignore]` or `#[destroy_ignore_remaining]`
attributes, it computes which fields participate in teardown and in which
order, accumulating diagnostics for malformed attribute usage.

We embed the three stages shallowly:
  * `parse_attributes`            — the validator (`parse_attributes` in lib.rs)
  * `FunctionDestroyStmts`        — the synthesizer
    (`FunctionDestroyStmtsFieldIterator::{new, next}` in lib.rs, collected)
  * `impl_macro`                  — the emitter (`impl_macro` in lib.rs)

Rust's `Vec<syn::Error>` pushed through `&mut` becomes lists returned and
concatenated in push order; `syn::Error` locations (spans) become explicit
locations (record-level, field index, or (field index, attribute index)).
-/

set_option autoImplicit false

namespace AshDestructor

/-- A raw attribute occurrence on a field: its path (e.g. `destroy_ignore`)
and whether it carries arguments (`attr.meta.require_path_only()` fails). -/
structure Attr where
  path : String
  hasArgs : Bool
  deriving DecidableEq

/-- A field of the input struct: optional name (named vs. positional field)
and its ordered attribute list, in declaration order. -/
structure Field where
  ident : Option String
  attrs : List Attr
  deriving DecidableEq

/-- Mirrors `struct FieldAttributes { destroy_ignore: bool }` in lib.rs. -/
structure FieldAttributes where
  destroy_ignore : Bool
  deriving DecidableEq

instance : Inhabited FieldAttributes := ⟨⟨false⟩⟩

/-- The distinct diagnostics `parse_attributes` and `impl_macro` can emit,
identified by their message in lib.rs:
  * `multipleRemaining` — "Multiple #[destroy_ignore_remaining] attributes in ..."
  * `remainingArgs`     — `attr.meta.require_path_only()` error on
    a `destroy_ignore_remaining` attribute
  * `misorderedIgnore`  — "Attribute #[destroy_ignore] is not allowed after a
    #[destroy_ignore_remaining] attribute declaration"
  * `multipleIgnore`    — "Multiple #[destroy_ignore] attributes on a single field"
  * `ignoreArgs`        — `attr.meta.require_path_only()` error on
    a `destroy_ignore` attribute
  * `enumUnsupported`   — "Enums are currently unsupported"
  * `unionUnsupported`  — "Unions are currently unsupported" -/
inductive DiagKind
  | multipleRemaining
  | remainingArgs
  | misorderedIgnore
  | multipleIgnore
  | ignoreArgs
  | enumUnsupported
  | unionUnsupported
  deriving DecidableEq

/-- The span a diagnostic is attached to: the whole record (`ast.span()`),
a field (`field.span()`), or an attribute occurrence (`attr.span()`,
identified by field position and index in that field's attribute list). -/
inductive DiagLoc
  | record
  | onField (f_i : Nat)
  | onAttr (f_i : Nat) (attr_i : Nat)
  deriving DecidableEq

/-- A `syn::Error`: what went wrong and where. -/
structure Diagnostic where
  kind : DiagKind
  loc : DiagLoc
  deriving DecidableEq

/-- First per-field loop of `parse_attributes` (lib.rs lines 30-47): scan this
field's attributes for `destroy_ignore_remaining`.  If a marker index is
already recorded, push the "Multiple" error and skip the occurrence
(`continue`); otherwise push the `require_path_only` error when the attribute
has arguments, and record this field's position `f_i` as the marker.
Returns the updated marker and the errors pushed by this loop, in push order. -/
def remainingSweep (f_i : Nat) (attr_i : Nat) (attrs : List Attr)
    (cutoff : Option Nat) : Option Nat × List Diagnostic :=
  match attrs with
  | [] => (cutoff, [])
  | a :: rest =>
    if a.path = "destroy_ignore_remaining" then
      match cutoff with
      | some c =>
        let r := remainingSweep f_i (attr_i + 1) rest (some c)
        (r.1, ⟨.multipleRemaining, .onAttr f_i attr_i⟩ :: r.2)
      | none =>
        let here : List Diagnostic :=
          if a.hasArgs then [⟨.remainingArgs, .onAttr f_i attr_i⟩] else []
        let r := remainingSweep f_i (attr_i + 1) rest (some f_i)
        (r.1, here ++ r.2)
    else
      remainingSweep f_i (attr_i + 1) rest cutoff

/-- Second per-field loop of `parse_attributes` (lib.rs lines 49-70): scan this
field's attributes for `destroy_ignore`.  For each occurrence at local index
`attr_i`: if a marker is recorded at field position `c` and `c ≥ attr_i`,
push the "not allowed after" error; if the field's flag is already set, push
the "Multiple ... on a single field" error (at the field's span); if the
attribute has arguments, push the `require_path_only` error; then set the
field's `destroy_ignore` flag.  Returns the final flag and the errors pushed
by this loop, in push order. -/
def excludeSweep (f_i : Nat) (attr_i : Nat) (attrs : List Attr)
    (cutoff : Option Nat) (flag : Bool) : Bool × List Diagnostic :=
  match attrs with
  | [] => (flag, [])
  | a :: rest =>
    if a.path = "destroy_ignore" then
      let e1 : List Diagnostic :=
        match cutoff with
        | some c => if c ≥ attr_i then [⟨.misorderedIgnore, .onAttr f_i attr_i⟩] else []
        | none => []
      let e2 : List Diagnostic :=
        if flag then [⟨.multipleIgnore, .onField f_i⟩] else []
      let e3 : List Diagnostic :=
        if a.hasArgs then [⟨.ignoreArgs, .onAttr f_i attr_i⟩] else []
      let r := excludeSweep f_i (attr_i + 1) rest cutoff true
      (r.1, e1 ++ e2 ++ e3 ++ r.2)
    else
      excludeSweep f_i (attr_i + 1) rest cutoff flag

/-- The outer field loop of `parse_attributes`: for each field (at running
position `f_i`), run the `destroy_ignore_remaining` loop, then the
`destroy_ignore` loop, push the field's `FieldAttributes` entry, and carry
the marker to the next field. -/
def parseAttributesGo (f_i : Nat) (fields : List Field) (cutoff : Option Nat) :
    Option Nat × List FieldAttributes × List Diagnostic :=
  match fields with
  | [] => (cutoff, [], [])
  | f :: rest =>
    let r1 := remainingSweep f_i 0 f.attrs cutoff
    let r2 := excludeSweep f_i 0 f.attrs r1.1 false
    let r3 := parseAttributesGo (f_i + 1) rest r1.1
    (r3.1, ⟨r2.1⟩ :: r3.2.1, r1.2 ++ r2.2 ++ r3.2.2)

/-- `parse_attributes` (lib.rs lines 20-77): returns
`(destroy_ignore_remaining_index, field_attrs, errors)`. -/
def parse_attributes (fields : List Field) :
    Option Nat × List FieldAttributes × List Diagnostic :=
  parseAttributesGo 0 fields none

/-- The statement emitted for one field by
`FunctionDestroyStmtsFieldIterator::next`: a `destroy_self_alloc` call on
`self.#ident` for a named field, or on `self.#tuple_i` for a positional one. -/
inductive Stmt
  | named (n : String)
  | positional (i : Nat)
  deriving DecidableEq

/-- The statement for the field `f` at position `i` (lib.rs lines 120-130). -/
def destroyStmt (i : Nat) (f : Field) : Stmt :=
  match f.ident with
  | some n => .named n
  | none => .positional i

/-- The body of `FunctionDestroyStmtsFieldIterator::next` for the enumerated
field `p`: skip it when its `destroy_ignore` flag is set
(`self.field_attributes[i]`), else emit its destroy statement. -/
def keepStmt (field_attributes : List FieldAttributes) (p : Nat × Field) :
    Option Stmt :=
  if (field_attributes.getD p.1 default).destroy_ignore then none
  else some (destroyStmt p.1 p.2)

/-- `FunctionDestroyStmtsFieldIterator`, collected to a list.  `new` builds
`fields.enumerate().rev()` and advances it `fields_len -
destroy_ignore_everything_after` times; `next` then skips every field whose
`destroy_ignore` flag is set and emits the destroy statement for the rest. -/
def FunctionDestroyStmts (fields : List Field)
    (field_attributes : List FieldAttributes)
    (destroy_ignore_everything_after : Nat) : List Stmt :=
  (fields.enum.reverse.drop (fields.length - destroy_ignore_everything_after)).filterMap
    (keepStmt field_attributes)

/-- The shape of a `syn::DeriveInput`'s data, as matched by `impl_macro`:
a struct with its field list, or an enum, or a union (the latter two
payloads are irrelevant to `impl_macro` and omitted). -/
inductive Data
  | Struct (fields : List Field)
  | Enum
  | Union
  deriving DecidableEq

/-- The generated `impl DeviceDestroyable` block: the ordered
`destroy_self_alloc` statements in its body, and the `to_compile_error`
streams of every accumulated diagnostic, spliced into the same output. -/
structure Output where
  stmts : List Stmt
  diagnostics : List Diagnostic
  deriving DecidableEq

/-- `impl_macro` (lib.rs lines 136-178): reject enums and unions with a single
error; otherwise run `parse_attributes`, build the destroy-statement iterator
with boundary `destroy_ignore_after.unwrap_or(fields.len())`, and emit the
implementation together with every accumulated error. -/
def impl_macro (ast : Data) : Except Diagnostic Output :=
  match ast with
  | .Enum => .error ⟨.enumUnsupported, .record⟩
  | .Union => .error ⟨.unionUnsupported, .record⟩
  | .Struct fields =>
    let r := parse_attributes fields
    let stmts := FunctionDestroyStmts fields r.2.1 (r.1.getD fields.length)
    .ok ⟨stmts, r.2.2⟩

/-! Spec-side helper definitions, used to state the claims.  These follow the
spec's vocabulary (cutoff marker, excluded flag, counts of annotation
occurrences) and are compared against the source-derived functions above. -/

/-- Whether a field carries at least one `destroy_ignore_remaining` attribute
(the spec's `ExcludeFromHere` annotation). -/
def hasRem (f : Field) : Bool :=
  f.attrs.any (fun a => a.path = "destroy_ignore_remaining")

/-- Whether a field carries at least one `destroy_ignore` attribute
(the spec's `Exclude` annotation). -/
def hasIgn (f : Field) : Bool :=
  f.attrs.any (fun a => a.path = "destroy_ignore")

/-- Position of the first field carrying an `ExcludeFromHere` annotation,
if any (the spec's "first-encountered" cutoff field). -/
def firstRemIdx (fields : List Field) : Option Nat :=
  match fields with
  | [] => none
  | f :: rest => if hasRem f then some 0 else (firstRemIdx rest).map (· + 1)

/-- Number of `ExcludeFromHere` occurrences in one attribute list. -/
def remCount (attrs : List Attr) : Nat :=
  (attrs.filter (fun a => a.path = "destroy_ignore_remaining")).length

/-- Number of `ExcludeFromHere` occurrences across the whole record. -/
def remTotal (fields : List Field) : Nat :=
  (fields.map (fun f => remCount f.attrs)).sum

/-- Number of `Exclude` occurrences in one attribute list. -/
def ignCount (attrs : List Attr) : Nat :=
  (attrs.filter (fun a => a.path = "destroy_ignore")).length

/-- A record with every attribute whose path is neither `destroy_ignore` nor
`destroy_ignore_remaining` removed from every field. -/
def eraseOther (fields : List Field) : List Field :=
  fields.map (fun f =>
    ⟨f.ident, f.attrs.filter
      (fun a => a.path = "destroy_ignore" || a.path = "destroy_ignore_remaining")⟩)

/-! Structural lemmas about the validator's state evolution. -/

/-- The marker after the `destroy_ignore_remaining` loop: unchanged when
already set, else the current field's position when the field carries the
attribute. -/
theorem remainingSweep_fst (f_i : Nat) :
    ∀ (attrs : List Attr) (j : Nat) (c : Option Nat),
    (remainingSweep f_i j attrs c).1 =
      match c with
      | some c' => some c'
      | none =>
        if attrs.any (fun a => a.path = "destroy_ignore_remaining")
        then some f_i else none
  | [], j, c => by cases c <;> simp [remainingSweep]
  | a :: rest, j, c => by
    by_cases h : a.path = "destroy_ignore_remaining"
    · cases c with
      | some c' => simp [remainingSweep, h, remainingSweep_fst f_i rest (j+1)]
      | none =>
        simp [remainingSweep, h, remainingSweep_fst f_i rest (j+1)]
    · cases c with
      | some c' => simp [remainingSweep, h, remainingSweep_fst f_i rest (j+1)]
      | none => simp [remainingSweep, h, remainingSweep_fst f_i rest (j+1)]

/-- The flag after the `destroy_ignore` loop: its old value, or true when the
field carries the attribute. -/
theorem excludeSweep_fst (f_i : Nat) :
    ∀ (attrs : List Attr) (j : Nat) (c : Option Nat) (b : Bool),
    (excludeSweep f_i j attrs c b).1 =
      (b || attrs.any (fun a => a.path = "destroy_ignore"))
  | [], j, c, b => by simp [excludeSweep]
  | a :: rest, j, c, b => by
    by_cases h : a.path = "destroy_ignore" <;>
      simp [excludeSweep, h, excludeSweep_fst f_i rest (j+1)]

/-- The marker returned by the field loop: unchanged when already set, else
the position of the first field carrying `destroy_ignore_remaining`. -/
theorem parseAttributesGo_fst :
    ∀ (fields : List Field) (i : Nat) (c : Option Nat),
    (parseAttributesGo i fields c).1 =
      match c with
      | some c' => some c'
      | none => (firstRemIdx fields).map (fun k => i + k)
  | [], i, c => by cases c <;> simp [parseAttributesGo, firstRemIdx]
  | f :: rest, i, c => by
    cases c with
    | some c' =>
      simp [parseAttributesGo, parseAttributesGo_fst rest (i+1),
        remainingSweep_fst i f.attrs 0]
    | none =>
      by_cases h : hasRem f
      · simp only [parseAttributesGo, parseAttributesGo_fst rest (i+1),
          remainingSweep_fst i f.attrs 0, firstRemIdx, h, if_pos,
          hasRem] at *
        simp [hasRem] at h
        simp [h, firstRemIdx]
      · have h' : f.attrs.any (fun a => a.path = "destroy_ignore_remaining") = false := by
          simpa [hasRem] using h
        simp only [parseAttributesGo, parseAttributesGo_fst rest (i+1),
          remainingSweep_fst i f.attrs 0, h']
        simp only [firstRemIdx, h, Bool.false_eq_true, if_false]
        cases hr : firstRemIdx rest with
        | none => simp
        | some k => simp; omega

/-- `parse_attributes` records as cutoff the position of the first field that
carries `destroy_ignore_remaining`, independently of arguments and of any
further occurrences. -/
theorem parse_attributes_cutoff (fields : List Field) :
    (parse_attributes fields).1 = firstRemIdx fields := by
  rw [parse_attributes, parseAttributesGo_fst]
  cases h : firstRemIdx fields <;> simp

/-- The attribute table has one entry per field, whose `destroy_ignore` flag
is set exactly when the field carries at least one `destroy_ignore`
attribute. -/
theorem parseAttributesGo_table :
    ∀ (fields : List Field) (i : Nat) (c : Option Nat),
    (parseAttributesGo i fields c).2.1 =
      fields.map (fun f => ⟨hasIgn f⟩)
  | [], i, c => by simp [parseAttributesGo]
  | f :: rest, i, c => by
    simp [parseAttributesGo, parseAttributesGo_table rest (i+1),
      excludeSweep_fst i f.attrs 0, hasIgn]

/-- `parse_attributes`' table is the per-field `hasIgn` flags. -/
theorem parse_attributes_table (fields : List Field) :
    (parse_attributes fields).2.1 = fields.map (fun f => ⟨hasIgn f⟩) :=
  parseAttributesGo_table fields 0 none

/-- A recorded first-occurrence position is a valid field position. -/
theorem firstRemIdx_lt_length :
    ∀ (fields : List Field) (c : Nat), firstRemIdx fields = some c →
      c < fields.length
  | [], c => by simp [firstRemIdx]
  | f :: rest, c => by
    by_cases h : hasRem f
    · simp [firstRemIdx, h]
      omega
    · simp only [firstRemIdx, h, Bool.false_eq_true, if_false]
      cases hr : firstRemIdx rest with
      | none => simp
      | some k =>
        have := firstRemIdx_lt_length rest k hr
        simp
        omega

/-! The synthesizer bridge: `FunctionDestroyStmts` equals the spec's plan
(fields below the boundary whose flag is unset, highest position first). -/

/-- Taking a prefix of an enumerated list keeps exactly the entries whose
index is below the corresponding bound. -/
theorem enumFrom_take_eq_filter {α : Type} :
    ∀ (l : List α) (k b : Nat),
    (List.enumFrom k l).take b =
      (List.enumFrom k l).filter (fun p => decide (p.1 < k + b))
  | [], k, b => by simp
  | x :: rest, k, 0 => by
    rw [List.take_zero]
    symm
    rw [List.filter_eq_nil_iff]
    intro p hp
    have hk : k ≤ p.1 := by
      rcases p with ⟨i, y⟩
      exact (List.mk_mem_enumFrom_iff_le_and_getElem?_sub.mp hp).1
    simp
    omega
  | x :: rest, k, b + 1 => by
    have harith : k + 1 + b = k + (b + 1) := by omega
    rw [List.enumFrom_cons, List.take_succ_cons, List.filter_cons,
      enumFrom_take_eq_filter rest (k + 1) b]
    have hk : k < k + (b + 1) := by omega
    simp [hk, harith]

/-- Collecting `keepStmt` over a list of enumerated fields is filtering on the
unset flag and emitting each kept field's statement. -/
theorem filterMap_keepStmt_eq (table : List FieldAttributes) :
    ∀ (l : List (Nat × Field)),
    l.filterMap (keepStmt table) =
      (l.filter (fun p => !(table.getD p.1 default).destroy_ignore)).map
        (fun p => destroyStmt p.1 p.2)
  | [] => by simp
  | p :: rest => by
    by_cases h : (table[p.1]?.getD default).destroy_ignore <;>
      simp [List.filterMap_cons, List.filter_cons, keepStmt, h,
        filterMap_keepStmt_eq table rest]

/-- Bridge: for any boundary within the field count, the synthesizer's output
is exactly the fields whose position is below the boundary and whose
`destroy_ignore` flag is unset, in reverse declaration order. -/
theorem FunctionDestroyStmts_eq_filter (fields : List Field)
    (table : List FieldAttributes) (b : Nat) :
    FunctionDestroyStmts fields table b =
      ((fields.enum.filter (fun p => decide (p.1 < b) &&
          !(table.getD p.1 default).destroy_ignore)).map
        (fun p => destroyStmt p.1 p.2)).reverse := by
  rw [FunctionDestroyStmts]
  have hlen : fields.length = fields.enum.length := (List.enum_length).symm
  rw [hlen, ← List.reverse_take, List.filterMap_reverse]
  have htake : fields.enum.take b
      = fields.enum.filter (fun p => decide (p.1 < b)) := by
    have h0 := enumFrom_take_eq_filter fields 0 b
    simpa [List.enum] using h0
  rw [htake]
  congr 1
  rw [filterMap_keepStmt_eq table, List.filter_filter]
  congr 1
  apply List.filter_congr
  intro a _
  exact Bool.and_comm _ _

/-- When no field carries `destroy_ignore_remaining` there is no first
occurrence. -/
theorem firstRemIdx_eq_none :
    ∀ (fields : List Field), (∀ f ∈ fields, hasRem f = false) →
      firstRemIdx fields = none
  | [], _ => rfl
  | f :: rest, h => by
    have hf : hasRem f = false := h f (by simp)
    have hr := firstRemIdx_eq_none rest (fun g hg => h g (by simp [hg]))
    simp [firstRemIdx, hf, hr]

/-- Looking up a field's entry in the attribute table. -/
theorem parse_table_getD (fields : List Field) (i : Nat) (f : Field)
    (hf : fields[i]? = some f) :
    (parse_attributes fields).2.1.getD i default = ⟨hasIgn f⟩ := by
  rw [parse_attributes_table]
  simp [List.getD_eq_getElem?_getD, hf]

/-- C1: for every record, the teardown plan equals exactly the fields whose
position is strictly less than the boundary (the cutoff field's position if
a marker exists, else the field count) and whose `destroy_ignore` flag is
unset, ordered from highest position to lowest; with no annotations the plan
is every field in reverse declaration order, i.e. positions n-1, ..., 0. -/
theorem claim1_teardown_plan (fields : List Field) :
    FunctionDestroyStmts fields (parse_attributes fields).2.1
        ((parse_attributes fields).1.getD fields.length) =
      ((fields.enum.filter (fun p =>
          decide (p.1 < (parse_attributes fields).1.getD fields.length) &&
          !((parse_attributes fields).2.1.getD p.1 default).destroy_ignore)).map
        (fun p => destroyStmt p.1 p.2)).reverse ∧
    ((∀ f ∈ fields, f.attrs = []) →
      FunctionDestroyStmts fields (parse_attributes fields).2.1
          ((parse_attributes fields).1.getD fields.length) =
        (fields.enum.map (fun p => destroyStmt p.1 p.2)).reverse) := by
  refine ⟨FunctionDestroyStmts_eq_filter fields _ _, fun hnone => ?_⟩
  rw [FunctionDestroyStmts_eq_filter fields _ _]
  have hcut : (parse_attributes fields).1 = none := by
    rw [parse_attributes_cutoff]
    exact firstRemIdx_eq_none fields
      (fun f hfmem => by simp [hasRem, hnone f hfmem])
  have hfilter : fields.enum.filter (fun p =>
      decide (p.1 < (parse_attributes fields).1.getD fields.length) &&
      !((parse_attributes fields).2.1.getD p.1 default).destroy_ignore) =
      fields.enum := by
    rw [List.filter_eq_self]
    intro p hp
    have hget : fields[p.1]? = some p.2 := List.mem_enum_iff_getElem?.mp hp
    have hlt : p.1 < fields.length := by
      have := List.getElem?_eq_some.mp hget
      exact this.1
    have hmem : p.2 ∈ fields := List.getElem?_mem hget
    have htab := parse_table_getD fields p.1 p.2 hget
    have higna : hasIgn p.2 = false := by simp [hasIgn, hnone p.2 hmem]
    rw [hcut, htab]
    simp [higna, hlt]
  rw [hfilter]

/-- Witness for C1: a two-field record with no annotations, plan is both
fields in reverse order. -/
theorem claim1_witness :
    FunctionDestroyStmts [⟨some "a", []⟩, ⟨some "b", []⟩]
        (parse_attributes [⟨some "a", []⟩, ⟨some "b", []⟩]).2.1
        ((parse_attributes [⟨some "a", []⟩, ⟨some "b", []⟩]).1.getD
          ([⟨some "a", []⟩, ⟨some "b", []⟩] : List Field).length) =
      (([⟨some "a", []⟩, ⟨some "b", []⟩] : List Field).enum.map
        (fun p => destroyStmt p.1 p.2)).reverse :=
  (claim1_teardown_plan [⟨some "a", []⟩, ⟨some "b", []⟩]).2 (by decide)

/-- C9: a sum-type (enum) or union input is rejected by `impl_macro` before
any validator, synthesizer or emitter work, with exactly the single
"unsupported" diagnostic and no generated implementation. -/
theorem claim9_unsupported_shape :
    impl_macro Data.Enum
        = Except.error ⟨DiagKind.enumUnsupported, DiagLoc.record⟩ ∧
    impl_macro Data.Union
        = Except.error ⟨DiagKind.unionUnsupported, DiagLoc.record⟩ :=
  ⟨rfl, rfl⟩

/-- C6: when the validator accumulated at least one diagnostic, the emitter
still produces the best-effort implementation, the emitted output carries
every accumulated diagnostic (the whole list, nothing omitted), and the
output is not diagnostic-free. -/
theorem claim6_diagnostics_not_swallowed (fields : List Field)
    (h : (parse_attributes fields).2.2 ≠ []) :
    ∃ out : Output, impl_macro (Data.Struct fields) = Except.ok out ∧
      out.stmts = FunctionDestroyStmts fields (parse_attributes fields).2.1
        ((parse_attributes fields).1.getD fields.length) ∧
      out.diagnostics = (parse_attributes fields).2.2 ∧
      out.diagnostics ≠ [] :=
  ⟨⟨FunctionDestroyStmts fields (parse_attributes fields).2.1
      ((parse_attributes fields).1.getD fields.length),
    (parse_attributes fields).2.2⟩, rfl, rfl, rfl, h⟩

/-- Witness for C6: one field carrying two `destroy_ignore` attributes. -/
theorem claim6_witness :
    ∃ out : Output,
      impl_macro (Data.Struct
          [⟨some "a", [⟨"destroy_ignore", false⟩, ⟨"destroy_ignore", false⟩]⟩])
        = Except.ok out ∧
      out.stmts = FunctionDestroyStmts
          [⟨some "a", [⟨"destroy_ignore", false⟩, ⟨"destroy_ignore", false⟩]⟩]
          (parse_attributes
            [⟨some "a", [⟨"destroy_ignore", false⟩, ⟨"destroy_ignore", false⟩]⟩]).2.1
          ((parse_attributes
            [⟨some "a", [⟨"destroy_ignore", false⟩, ⟨"destroy_ignore", false⟩]⟩]).1.getD
            ([⟨some "a", [⟨"destroy_ignore", false⟩,
              ⟨"destroy_ignore", false⟩]⟩] : List Field).length) ∧
      out.diagnostics = (parse_attributes
          [⟨some "a", [⟨"destroy_ignore", false⟩, ⟨"destroy_ignore", false⟩]⟩]).2.2 ∧
      out.diagnostics ≠ [] :=
  claim6_diagnostics_not_swallowed
    [⟨some "a", [⟨"destroy_ignore", false⟩, ⟨"destroy_ignore", false⟩]⟩]
    (by decide)

/-! Counting lemmas for annotation occurrences. -/

/-- A field carries no `ExcludeFromHere` annotation iff its count is zero. -/
theorem hasRem_false_iff (f : Field) :
    hasRem f = false ↔ remCount f.attrs = 0 := by
  simp [hasRem, remCount, List.length_eq_zero, List.filter_eq_nil_iff]

/-- `remTotal` distributes over append. -/
theorem remTotal_append (l1 l2 : List Field) :
    remTotal (l1 ++ l2) = remTotal l1 + remTotal l2 := by
  simp [remTotal]

/-- A record's `ExcludeFromHere` total is zero iff every field's count is. -/
theorem remTotal_eq_zero_iff (l : List Field) :
    remTotal l = 0 ↔ ∀ g ∈ l, remCount g.attrs = 0 := by
  simp [remTotal, List.sum_eq_zero_iff]

/-- An argument-free (or any) occurrence gives a positive count. -/
theorem remCount_pos (f : Field)
    (h : ∃ a ∈ f.attrs, a.path = "destroy_ignore_remaining") :
    0 < remCount f.attrs := by
  obtain ⟨a, ha, hp⟩ := h
  have : a ∈ f.attrs.filter (fun a => a.path = "destroy_ignore_remaining") :=
    List.mem_filter.mpr ⟨ha, by simp [hp]⟩
  exact List.length_pos.mpr (List.ne_nil_of_mem this)

/-- The first cutoff field in `pre ++ fk :: rest` is `fk` when no field of
`pre` carries the marker. -/
theorem firstRemIdx_append :
    ∀ (pre : List Field) (fk : Field) (rest : List Field),
    (∀ g ∈ pre, hasRem g = false) → hasRem fk = true →
      firstRemIdx (pre ++ fk :: rest) = some pre.length
  | [], fk, rest, _, hfk => by simp [firstRemIdx, hfk]
  | g :: pre, fk, rest, hpre, hfk => by
    have hg : hasRem g = false := hpre g (by simp)
    have ih := firstRemIdx_append pre fk rest
      (fun x hx => hpre x (by simp [hx])) hfk
    simp [firstRemIdx, hg, ih]

/-- C2: with a sole argument-free `ExcludeFromHere` on the field at position
`k = pre.length`, the cutoff is `k`, and the teardown plan is exactly the
non-individually-excluded positions strictly below `k` in descending order —
the cutoff field and everything after it is omitted no matter what flags
those fields carry.  The concrete `a, b, c` scenario with `b` annotated
yields plan `[a]` and zero diagnostics. -/
theorem claim2_sole_cutoff (pre post : List Field) (fk : Field)
    (hone : ∃ a ∈ fk.attrs, a.path = "destroy_ignore_remaining" ∧
      a.hasArgs = false)
    (htot : remTotal (pre ++ fk :: post) = 1) :
    (parse_attributes (pre ++ fk :: post)).1 = some pre.length ∧
    FunctionDestroyStmts (pre ++ fk :: post)
        (parse_attributes (pre ++ fk :: post)).2.1
        ((parse_attributes (pre ++ fk :: post)).1.getD
          (pre ++ fk :: post).length) =
      (((pre ++ fk :: post).enum.filter (fun p =>
          decide (p.1 < pre.length) &&
          !((parse_attributes (pre ++ fk :: post)).2.1.getD p.1
              default).destroy_ignore)).map
        (fun p => destroyStmt p.1 p.2)).reverse ∧
    impl_macro (Data.Struct
        [⟨some "a", []⟩, ⟨some "b", [⟨"destroy_ignore_remaining", false⟩]⟩,
          ⟨some "c", []⟩])
      = Except.ok ⟨[Stmt.named "a"], []⟩ := by
  have hfk : hasRem fk = true := by
    obtain ⟨a, ha, hp, _⟩ := hone
    simp only [hasRem, List.any_eq_true]
    exact ⟨a, ha, by simp [hp]⟩
  have hpre0 : remTotal pre = 0 := by
    rw [remTotal_append] at htot
    have h1 : 0 < remCount fk.attrs :=
      remCount_pos fk (by obtain ⟨a, ha, hp, _⟩ := hone; exact ⟨a, ha, hp⟩)
    have h2 : remTotal (fk :: post) = remCount fk.attrs + remTotal post := by
      simp [remTotal]
    omega
  have hpre : ∀ g ∈ pre, hasRem g = false := fun g hg =>
    (hasRem_false_iff g).mpr ((remTotal_eq_zero_iff pre).mp hpre0 g hg)
  have hcut : (parse_attributes (pre ++ fk :: post)).1 = some pre.length := by
    rw [parse_attributes_cutoff]
    exact firstRemIdx_append pre fk post hpre hfk
  refine ⟨hcut, ?_, rfl⟩
  rw [hcut]
  simp only [Option.getD_some]
  exact FunctionDestroyStmts_eq_filter _ _ _

/-- Witness for C2: `a, b, c` with the marker on `b` gives cutoff position 1. -/
theorem claim2_witness :
    (parse_attributes ([⟨some "a", []⟩] ++
        ⟨some "b", [⟨"destroy_ignore_remaining", false⟩]⟩ ::
        [⟨some "c", []⟩])).1 =
      some ([⟨some "a", []⟩] : List Field).length :=
  (claim2_sole_cutoff [⟨some "a", []⟩] [⟨some "c", []⟩]
    ⟨some "b", [⟨"destroy_ignore_remaining", false⟩]⟩
    ⟨⟨"destroy_ignore_remaining", false⟩, by decide, by decide, by decide⟩
    (by decide)).1

/-- Kinds that the `destroy_ignore_remaining` loop can emit. -/
theorem remainingSweep_kinds (f_i : Nat) :
    ∀ (attrs : List Attr) (j : Nat) (c : Option Nat),
    ∀ d ∈ (remainingSweep f_i j attrs c).2,
      d.kind = DiagKind.multipleRemaining ∨ d.kind = DiagKind.remainingArgs
  | [], j, c => by simp [remainingSweep]
  | a :: rest, j, c => by
    intro d hd
    by_cases h : a.path = "destroy_ignore_remaining"
    · cases c with
      | some c' =>
        simp only [remainingSweep, h, if_true] at hd
        rcases List.mem_cons.mp hd with h1 | h1
        · left; rw [h1]
        · exact remainingSweep_kinds f_i rest (j+1) (some c') d h1
      | none =>
        simp only [remainingSweep, h, if_true] at hd
        rcases List.mem_append.mp hd with h1 | h1
        · by_cases ha : a.hasArgs
          · simp [ha] at h1; right; rw [h1]
          · simp [ha] at h1
        · exact remainingSweep_kinds f_i rest (j+1) (some f_i) d h1
    · simp only [remainingSweep, h, if_false] at hd
      exact remainingSweep_kinds f_i rest (j+1) c d hd

/-- Kinds that the `destroy_ignore` loop can emit. -/
theorem excludeSweep_kinds (f_i : Nat) :
    ∀ (attrs : List Attr) (j : Nat) (c : Option Nat) (b : Bool),
    ∀ d ∈ (excludeSweep f_i j attrs c b).2,
      d.kind = DiagKind.misorderedIgnore ∨ d.kind = DiagKind.multipleIgnore ∨
        d.kind = DiagKind.ignoreArgs
  | [], j, c, b => by simp [excludeSweep]
  | a :: rest, j, c, b => by
    intro d hd
    by_cases h : a.path = "destroy_ignore"
    · simp only [excludeSweep, h, if_true] at hd
      rcases List.mem_append.mp hd with h1 | h1
      · rcases List.mem_append.mp h1 with h2 | h2
        · rcases List.mem_append.mp h2 with h3 | h3
          · cases c with
            | some c' =>
              by_cases hc : c' ≥ j
              · simp [hc] at h3; left; rw [h3]
              · simp [hc] at h3
            | none => simp at h3
          · by_cases hb : b
            · simp [hb] at h3; right; left; rw [h3]
            · simp [hb] at h3
        · by_cases ha : a.hasArgs
          · simp [ha] at h2; right; right; rw [h2]
          · simp [ha] at h2
      · exact excludeSweep_kinds f_i rest (j+1) c true d h1
    · simp only [excludeSweep, h, if_false] at hd
      exact excludeSweep_kinds f_i rest (j+1) c b d hd

/-- Each duplicate `destroy_ignore_remaining` occurrence after the first one
in scope yields one "Multiple" diagnostic. -/
theorem remainingSweep_multRem_count (f_i : Nat) :
    ∀ (attrs : List Attr) (j : Nat) (c : Option Nat),
    ((remainingSweep f_i j attrs c).2.filter
        (fun d => d.kind = DiagKind.multipleRemaining)).length =
      if c.isSome then remCount attrs else remCount attrs - 1
  | [], j, c => by cases c <;> simp [remainingSweep, remCount]
  | a :: rest, j, c => by
    by_cases h : a.path = "destroy_ignore_remaining"
    · cases c with
      | some c' =>
        have ih := remainingSweep_multRem_count f_i rest (j+1) (some c')
        simp only [Option.isSome_some, if_true] at ih
        simp [remainingSweep, h, remCount, List.filter_cons, ih]
      | none =>
        have ih := remainingSweep_multRem_count f_i rest (j+1) (some f_i)
        simp only [Option.isSome_some, if_true] at ih
        have hcnt : remCount (a :: rest) = remCount rest + 1 := by
          simp [remCount, List.filter_cons, h]
        by_cases ha : a.hasArgs <;>
          simp [remainingSweep, h, ha, List.filter_cons, ih, hcnt]
    · have ih := remainingSweep_multRem_count f_i rest (j+1) c
      have hcnt : remCount (a :: rest) = remCount rest := by
        simp [remCount, List.filter_cons, h]
      simp [remainingSweep, h, ih, hcnt]

/-- Each `destroy_ignore` occurrence beyond the first on one field yields one
"Multiple ... on a single field" diagnostic. -/
theorem excludeSweep_multIgn_count (f_i : Nat) :
    ∀ (attrs : List Attr) (j : Nat) (c : Option Nat) (b : Bool),
    ((excludeSweep f_i j attrs c b).2.filter
        (fun d => d.kind = DiagKind.multipleIgnore)).length =
      if b then ignCount attrs else ignCount attrs - 1
  | [], j, c, b => by cases b <;> simp [excludeSweep, ignCount]
  | a :: rest, j, c, b => by
    by_cases h : a.path = "destroy_ignore"
    · have ih := excludeSweep_multIgn_count f_i rest (j+1) c true
      simp only [if_true] at ih
      have hcnt : ignCount (a :: rest) = ignCount rest + 1 := by
        simp [ignCount, List.filter_cons, h]
      have he1 : ∀ (e1 : List Diagnostic),
          (∀ d ∈ e1, d.kind ≠ DiagKind.multipleIgnore) →
          ∀ (e2 : List Diagnostic),
          ((e1 ++ e2).filter (fun d => d.kind = DiagKind.multipleIgnore)).length
            = (e2.filter (fun d => d.kind = DiagKind.multipleIgnore)).length := by
        intro e1 h1 e2
        rw [List.filter_append]
        have : e1.filter (fun d => d.kind = DiagKind.multipleIgnore) = [] := by
          rw [List.filter_eq_nil_iff]
          intro d hd
          simp [h1 d hd]
        rw [this]
        simp
      cases b with
      | false =>
        simp only [excludeSweep, h, if_true, Bool.false_eq_true, if_false]
        rw [List.append_assoc, List.append_assoc]
        rw [he1 _ (by
          intro d hd
          cases c with
          | some c' =>
            by_cases hc : c' ≥ j
            · simp [hc] at hd; rw [hd]; simp
            · simp [hc] at hd
          | none => simp at hd)]
        rw [he1 _ (by simp)]
        rw [he1 _ (by
          intro d hd
          by_cases ha : a.hasArgs
          · simp [ha] at hd; rw [hd]; simp
          · simp [ha] at hd)]
        rw [ih, hcnt]
        omega
      | true =>
        simp only [excludeSweep, h, if_true]
        rw [List.append_assoc, List.append_assoc]
        rw [he1 _ (by
          intro d hd
          cases c with
          | some c' =>
            by_cases hc : c' ≥ j
            · simp [hc] at hd; rw [hd]; simp
            · simp [hc] at hd
          | none => simp at hd)]
        rw [List.singleton_append, List.filter_cons]
        simp only [decide_eq_true_eq]
        rw [if_pos trivial]
        rw [List.length_cons]
        rw [he1 _ (by
          intro d hd
          by_cases ha : a.hasArgs
          · simp [ha] at hd; rw [hd]; simp
          · simp [ha] at hd)]
        simp [ih, hcnt]
    · have ih := excludeSweep_multIgn_count f_i rest (j+1) c b
      have hcnt : ignCount (a :: rest) = ignCount rest := by
        simp [ignCount, List.filter_cons, h]
      simp only [excludeSweep, h, if_false]
      rw [ih, hcnt]

/-- `remTotal` over a cons. -/
theorem remTotal_cons (f : Field) (rest : List Field) :
    remTotal (f :: rest) = remCount f.attrs + remTotal rest := by
  simp [remTotal]

/-- Across the record, the number of "Multiple #[destroy_ignore_remaining]"
diagnostics is the number of occurrences not in first position. -/
theorem parseAttributesGo_multRem_count :
    ∀ (fields : List Field) (i : Nat) (c : Option Nat),
    ((parseAttributesGo i fields c).2.2.filter
        (fun d => d.kind = DiagKind.multipleRemaining)).length =
      if c.isSome then remTotal fields else remTotal fields - 1
  | [], i, c => by cases c <;> simp [parseAttributesGo, remTotal]
  | f :: rest, i, c => by
    have hr2 : ((excludeSweep i 0 f.attrs
        (remainingSweep i 0 f.attrs c).1 false).2.filter
        (fun d => d.kind = DiagKind.multipleRemaining)) = [] := by
      rw [List.filter_eq_nil_iff]
      intro d hd
      rcases excludeSweep_kinds i f.attrs 0 _ false d hd with h | h | h <;>
        simp [h]
    have hr1 := remainingSweep_multRem_count i f.attrs 0 c
    have hfst := remainingSweep_fst i f.attrs 0 c
    simp only [parseAttributesGo, List.filter_append, List.length_append, hr2,
      List.length_nil]
    cases c with
    | some c' =>
      have hcut1 : (remainingSweep i 0 f.attrs (some c')).1 = some c' := by
        rw [hfst]
      have ih := parseAttributesGo_multRem_count rest (i+1) (some c')
      simp only [Option.isSome_some, if_true] at ih hr1
      rw [hcut1, ih, hr1, remTotal_cons]
      simp only [Option.isSome_some, if_true]
      omega
    | none =>
      simp only [Option.isSome_none, Bool.false_eq_true, if_false] at hr1
      by_cases hf : hasRem f
      · have hf' : f.attrs.any
            (fun a => a.path = "destroy_ignore_remaining") = true := by
          simpa [hasRem] using hf
        have hcut1 : (remainingSweep i 0 f.attrs none).1 = some i := by
          rw [hfst]; simp [hf']
        have ih := parseAttributesGo_multRem_count rest (i+1) (some i)
        simp only [Option.isSome_some, if_true] at ih
        have hc1 : remCount f.attrs ≠ 0 := by
          intro h0
          rw [← hasRem_false_iff f] at h0
          rw [hf] at h0
          exact Bool.true_eq_false.mp h0
        rw [hcut1, ih, hr1, remTotal_cons]
        simp only [Option.isSome_none, Bool.false_eq_true, if_false]
        omega
      · have hf0 : hasRem f = false := by
          cases hhh : hasRem f
          · rfl
          · exact absurd hhh hf
        have hf' : f.attrs.any
            (fun a => a.path = "destroy_ignore_remaining") = false := by
          simpa [hasRem] using hf0
        have hcut1 : (remainingSweep i 0 f.attrs none).1 = none := by
          rw [hfst]; simp [hf']
        have ih := parseAttributesGo_multRem_count rest (i+1) none
        simp only [Option.isSome_none, Bool.false_eq_true, if_false] at ih
        have hc0 : remCount f.attrs = 0 := (hasRem_false_iff f).mp hf0
        rw [hcut1, ih, hr1, remTotal_cons]
        simp only [Option.isSome_none, Bool.false_eq_true, if_false]
        omega

/-- `parse_attributes` emits one "Multiple #[destroy_ignore_remaining]"
diagnostic per occurrence beyond the first. -/
theorem parse_multRem_count (fields : List Field) :
    ((parse_attributes fields).2.2.filter
        (fun d => d.kind = DiagKind.multipleRemaining)).length =
      remTotal fields - 1 := by
  have h := parseAttributesGo_multRem_count fields 0 none
  simpa using h

/-- Across the record, the number of "Multiple #[destroy_ignore] ... single
field" diagnostics is the per-field count of occurrences beyond the first. -/
theorem parseAttributesGo_multIgn_count :
    ∀ (fields : List Field) (i : Nat) (c : Option Nat),
    ((parseAttributesGo i fields c).2.2.filter
        (fun d => d.kind = DiagKind.multipleIgnore)).length =
      (fields.map (fun f => ignCount f.attrs - 1)).sum
  | [], i, c => by simp [parseAttributesGo]
  | f :: rest, i, c => by
    have hr1 : ((remainingSweep i 0 f.attrs c).2.filter
        (fun d => d.kind = DiagKind.multipleIgnore)) = [] := by
      rw [List.filter_eq_nil_iff]
      intro d hd
      rcases remainingSweep_kinds i f.attrs 0 c d hd with h | h <;> simp [h]
    have hr2 := excludeSweep_multIgn_count i f.attrs 0
      (remainingSweep i 0 f.attrs c).1 false
    simp only [Bool.false_eq_true, if_false] at hr2
    have ih := parseAttributesGo_multIgn_count rest (i+1)
      (remainingSweep i 0 f.attrs c).1
    simp only [parseAttributesGo, List.filter_append, List.length_append, hr1,
      List.length_nil, List.map_cons, List.sum_cons]
    rw [hr2, ih]
    omega

/-- `parse_attributes` emits one "Multiple #[destroy_ignore]" diagnostic per
field and occurrence beyond the first on that field. -/
theorem parse_multIgn_count (fields : List Field) :
    ((parse_attributes fields).2.2.filter
        (fun d => d.kind = DiagKind.multipleIgnore)).length =
      (fields.map (fun f => ignCount f.attrs - 1)).sum :=
  parseAttributesGo_multIgn_count fields 0 none

/-- C7: a record with exactly two argument-free `ExcludeFromHere` annotations
on two different fields (the earlier one at position `pre.length`) yields
exactly one "Multiple #[destroy_ignore_remaining]" diagnostic, and the cutoff
used for synthesis is the first-encountered occurrence's field position. -/
theorem claim7_duplicate_cutoff (pre mid post : List Field) (fi fj : Field)
    (hi : ∃ a ∈ fi.attrs, a.path = "destroy_ignore_remaining" ∧
      a.hasArgs = false)
    (hj : ∃ a ∈ fj.attrs, a.path = "destroy_ignore_remaining" ∧
      a.hasArgs = false)
    (htot : remTotal (pre ++ fi :: (mid ++ fj :: post)) = 2) :
    (parse_attributes (pre ++ fi :: (mid ++ fj :: post))).1 = some pre.length ∧
    ((parse_attributes (pre ++ fi :: (mid ++ fj :: post))).2.2.filter
        (fun d => d.kind = DiagKind.multipleRemaining)).length = 1 := by
  have hposi : 0 < remCount fi.attrs :=
    remCount_pos fi (by obtain ⟨a, ha, hp, _⟩ := hi; exact ⟨a, ha, hp⟩)
  have hposj : 0 < remCount fj.attrs :=
    remCount_pos fj (by obtain ⟨a, ha, hp, _⟩ := hj; exact ⟨a, ha, hp⟩)
  have hsplit : remTotal (pre ++ fi :: (mid ++ fj :: post)) =
      remTotal pre + (remCount fi.attrs +
        (remTotal mid + (remCount fj.attrs + remTotal post))) := by
    rw [remTotal_append, remTotal_cons, remTotal_append, remTotal_cons]
  have hpre0 : remTotal pre = 0 := by omega
  have hpre : ∀ g ∈ pre, hasRem g = false := fun g hg =>
    (hasRem_false_iff g).mpr ((remTotal_eq_zero_iff pre).mp hpre0 g hg)
  have hfi : hasRem fi = true := by
    obtain ⟨a, ha, hp, _⟩ := hi
    simp only [hasRem, List.any_eq_true]
    exact ⟨a, ha, by simp [hp]⟩
  constructor
  · rw [parse_attributes_cutoff]
    exact firstRemIdx_append pre fi (mid ++ fj :: post) hpre hfi
  · rw [parse_multRem_count, htot]

/-- Witness for C7: two single-marker fields. -/
theorem claim7_witness :
    (parse_attributes ([] ++
        ⟨some "a", [⟨"destroy_ignore_remaining", false⟩]⟩ :: ([] ++
        ⟨some "b", [⟨"destroy_ignore_remaining", false⟩]⟩ :: []))).1 =
      some ([] : List Field).length ∧
    ((parse_attributes ([] ++
        ⟨some "a", [⟨"destroy_ignore_remaining", false⟩]⟩ :: ([] ++
        ⟨some "b", [⟨"destroy_ignore_remaining", false⟩]⟩ :: []))).2.2.filter
        (fun d => d.kind = DiagKind.multipleRemaining)).length = 1 :=
  claim7_duplicate_cutoff [] [] []
    ⟨some "a", [⟨"destroy_ignore_remaining", false⟩]⟩
    ⟨some "b", [⟨"destroy_ignore_remaining", false⟩]⟩
    ⟨⟨"destroy_ignore_remaining", false⟩, by decide, by decide, by decide⟩
    ⟨⟨"destroy_ignore_remaining", false⟩, by decide, by decide, by decide⟩
    (by decide)

/-- A field has an `Exclude` annotation iff its count is positive. -/
theorem hasIgn_true_iff (f : Field) :
    hasIgn f = true ↔ 0 < ignCount f.attrs := by
  rw [ignCount, List.length_pos]
  constructor
  · intro h
    simp only [hasIgn, List.any_eq_true] at h
    obtain ⟨a, ha, hp⟩ := h
    intro hnil
    rw [List.filter_eq_nil_iff] at hnil
    exact hnil a ha hp
  · intro h
    simp only [hasIgn, List.any_eq_true]
    cases hfil : f.attrs.filter (fun a => decide (a.path = "destroy_ignore")) with
    | nil => exact absurd hfil h
    | cons a t =>
      have ha : a ∈ f.attrs.filter
          (fun a => decide (a.path = "destroy_ignore")) := by
        rw [hfil]
        exact List.mem_cons_self a t
      have hmf := List.mem_filter.mp ha
      exact ⟨a, hmf.1, hmf.2⟩

/-- C8: a record with no cutoff marker, in which the field at position
`pre.length` carries exactly two argument-free `Exclude` annotations and
every other field at most one, yields exactly one "Multiple #[destroy_ignore]
attributes on a single field" diagnostic, the field's `excluded` flag is
still set, and the teardown plan omits the field: the plan equals the one
where position `pre.length` is filtered out explicitly. -/
theorem claim8_duplicate_exclude (pre post : List Field) (fp : Field)
    (hcount : ignCount fp.attrs = 2)
    (hargfree : ∀ a ∈ fp.attrs, a.path = "destroy_ignore" →
      a.hasArgs = false)
    (hothers : ∀ g ∈ pre ++ post, ignCount g.attrs ≤ 1)
    (hnorem : ∀ g ∈ pre ++ fp :: post, hasRem g = false) :
    ((parse_attributes (pre ++ fp :: post)).2.2.filter
        (fun d => d.kind = DiagKind.multipleIgnore)).length = 1 ∧
    (parse_attributes (pre ++ fp :: post)).2.1.getD pre.length default
      = ⟨true⟩ ∧
    FunctionDestroyStmts (pre ++ fp :: post)
        (parse_attributes (pre ++ fp :: post)).2.1
        ((parse_attributes (pre ++ fp :: post)).1.getD
          (pre ++ fp :: post).length) =
      (((pre ++ fp :: post).enum.filter (fun p =>
          decide (p.1 < (parse_attributes (pre ++ fp :: post)).1.getD
            (pre ++ fp :: post).length) &&
          (!((parse_attributes (pre ++ fp :: post)).2.1.getD p.1
              default).destroy_ignore &&
            decide (p.1 ≠ pre.length)))).map
        (fun p => destroyStmt p.1 p.2)).reverse := by
  have hgetfp : (pre ++ fp :: post)[pre.length]? = some fp := by
    rw [List.getElem?_append_right (Nat.le_refl pre.length)]
    simp
  have htabfp : (parse_attributes (pre ++ fp :: post)).2.1.getD pre.length
      default = ⟨true⟩ := by
    rw [parse_table_getD (pre ++ fp :: post) pre.length fp hgetfp]
    have : hasIgn fp = true := (hasIgn_true_iff fp).mpr (by omega)
    rw [this]
  refine ⟨?_, htabfp, ?_⟩
  · rw [parse_multIgn_count]
    have hmap : (pre ++ fp :: post).map (fun f => ignCount f.attrs - 1) =
        pre.map (fun f => ignCount f.attrs - 1) ++
          (ignCount fp.attrs - 1) ::
            post.map (fun f => ignCount f.attrs - 1) := by
      simp
    rw [hmap, List.sum_append, List.sum_cons, hcount]
    have hzero : ∀ (l : List Field), (∀ g ∈ l, ignCount g.attrs ≤ 1) →
        (l.map (fun f => ignCount f.attrs - 1)).sum = 0 := by
      intro l hl
      apply List.sum_eq_zero
      intro x hx
      obtain ⟨g, hg, hgx⟩ := List.mem_map.mp hx
      have := hl g hg
      omega
    rw [hzero pre (fun g hg => hothers g (List.mem_append.mpr (Or.inl hg))),
      hzero post (fun g hg => hothers g (List.mem_append.mpr (Or.inr hg)))]
    omega
  · rw [FunctionDestroyStmts_eq_filter]
    congr 1
    congr 1
    apply List.filter_congr
    intro p hp
    by_cases hpk : p.1 = pre.length
    · rw [hpk, htabfp]
      simp
    · simp [hpk]

/-- Witness for C8: `a` with two `destroy_ignore` attributes, then `b`. -/
theorem claim8_witness :
    ((parse_attributes ([] ++
        ⟨some "a", [⟨"destroy_ignore", false⟩, ⟨"destroy_ignore", false⟩]⟩ ::
        [⟨some "b", []⟩])).2.2.filter
        (fun d => d.kind = DiagKind.multipleIgnore)).length = 1 ∧
    (parse_attributes ([] ++
        ⟨some "a", [⟨"destroy_ignore", false⟩, ⟨"destroy_ignore", false⟩]⟩ ::
        [⟨some "b", []⟩])).2.1.getD ([] : List Field).length default
      = ⟨true⟩ :=
  ⟨(claim8_duplicate_exclude [] [⟨some "b", []⟩]
      ⟨some "a", [⟨"destroy_ignore", false⟩, ⟨"destroy_ignore", false⟩]⟩
      (by decide) (by decide) (by decide) (by decide)).1,
    (claim8_duplicate_exclude [] [⟨some "b", []⟩]
      ⟨some "a", [⟨"destroy_ignore", false⟩, ⟨"destroy_ignore", false⟩]⟩
      (by decide) (by decide) (by decide) (by decide)).2.1⟩

/-! Location lemmas: every diagnostic points at the field being processed,
and attribute-located diagnostics point at a recognized attribute. -/

/-- Diagnostics of the `destroy_ignore_remaining` loop sit on one of this
field's `destroy_ignore_remaining` attributes. -/
theorem remainingSweep_mem_charloc (f_i : Nat) :
    ∀ (attrs : List Attr) (j : Nat) (c : Option Nat),
    ∀ d ∈ (remainingSweep f_i j attrs c).2,
      ∃ a t, d.loc = DiagLoc.onAttr f_i a ∧ j ≤ a ∧ attrs[a - j]? = some t ∧
        t.path = "destroy_ignore_remaining"
  | [], j, c => by simp [remainingSweep]
  | a0 :: rest, j, c => by
    intro d hd
    have step : ∀ d ∈ (remainingSweep f_i (j+1) rest
        (if a0.path = "destroy_ignore_remaining" then
          (match c with | some c' => some c' | none => some f_i) else c)).2,
        ∃ a t, d.loc = DiagLoc.onAttr f_i a ∧ j ≤ a ∧
          (a0 :: rest)[a - j]? = some t ∧
          t.path = "destroy_ignore_remaining" := by
      intro d hd
      obtain ⟨a, t, hloc, hja, hget, hpath⟩ :=
        remainingSweep_mem_charloc f_i rest (j+1) _ d hd
      refine ⟨a, t, hloc, by omega, ?_, hpath⟩
      have : a - j = (a - (j+1)) + 1 := by omega
      rw [this, List.getElem?_cons_succ]
      exact hget
    by_cases h : a0.path = "destroy_ignore_remaining"
    · cases c with
      | some c' =>
        simp only [remainingSweep, h, if_true] at hd
        rcases List.mem_cons.mp hd with h1 | h1
        · exact ⟨j, a0, by rw [h1], Nat.le_refl j, by simp, h⟩
        · have := step d (by simpa [h] using h1)
          exact this
      | none =>
        simp only [remainingSweep, h, if_true] at hd
        rcases List.mem_append.mp hd with h1 | h1
        · by_cases ha : a0.hasArgs
          · simp [ha] at h1
            exact ⟨j, a0, by rw [h1], Nat.le_refl j, by simp, h⟩
          · simp [ha] at h1
        · have := step d (by simpa [h] using h1)
          exact this
    · simp only [remainingSweep, h, if_false] at hd
      have := step d (by simpa [h] using hd)
      exact this

/-- Diagnostics of the `destroy_ignore` loop sit on this field itself or on
one of its `destroy_ignore` attributes. -/
theorem excludeSweep_mem_charloc (f_i : Nat) :
    ∀ (attrs : List Attr) (j : Nat) (c : Option Nat) (b : Bool),
    ∀ d ∈ (excludeSweep f_i j attrs c b).2,
      d.loc = DiagLoc.onField f_i ∨
      ∃ a t, d.loc = DiagLoc.onAttr f_i a ∧ j ≤ a ∧ attrs[a - j]? = some t ∧
        t.path = "destroy_ignore"
  | [], j, c, b => by simp [excludeSweep]
  | a0 :: rest, j, c, b => by
    intro d hd
    have step : ∀ (b' : Bool), ∀ d ∈ (excludeSweep f_i (j+1) rest c b').2,
        d.loc = DiagLoc.onField f_i ∨
        ∃ a t, d.loc = DiagLoc.onAttr f_i a ∧ j ≤ a ∧
          (a0 :: rest)[a - j]? = some t ∧ t.path = "destroy_ignore" := by
      intro b' d hd
      rcases excludeSweep_mem_charloc f_i rest (j+1) c b' d hd with h1 | h1
      · exact Or.inl h1
      · obtain ⟨a, t, hloc, hja, hget, hpath⟩ := h1
        refine Or.inr ⟨a, t, hloc, by omega, ?_, hpath⟩
        have : a - j = (a - (j+1)) + 1 := by omega
        rw [this, List.getElem?_cons_succ]
        exact hget
    by_cases h : a0.path = "destroy_ignore"
    · simp only [excludeSweep, h, if_true] at hd
      rcases List.mem_append.mp hd with h1 | h1
      · rcases List.mem_append.mp h1 with h2 | h2
        · rcases List.mem_append.mp h2 with h3 | h3
          · cases c with
            | some c' =>
              by_cases hc : c' ≥ j
              · simp [hc] at h3
                exact Or.inr ⟨j, a0, by rw [h3], Nat.le_refl j, by simp, h⟩
              · simp [hc] at h3
            | none => simp at h3
          · by_cases hb : b
            · simp [hb] at h3
              exact Or.inl (by rw [h3])
            · simp [hb] at h3
        · by_cases ha : a0.hasArgs
          · simp [ha] at h2
            exact Or.inr ⟨j, a0, by rw [h2], Nat.le_refl j, by simp, h⟩
          · simp [ha] at h2
      · exact step true d h1
    · simp only [excludeSweep, h, if_false] at hd
      exact step b d hd

/-- Every diagnostic of the field loop is located on a field position in the
processed range. -/
theorem parseAttributesGo_mem_locrange :
    ∀ (fields : List Field) (i : Nat) (c : Option Nat),
    ∀ d ∈ (parseAttributesGo i fields c).2.2,
      ∃ q, (d.loc = DiagLoc.onField q ∨ ∃ a, d.loc = DiagLoc.onAttr q a) ∧
        i ≤ q ∧ q < i + fields.length
  | [], i, c => by simp [parseAttributesGo]
  | f :: rest, i, c => by
    intro d hd
    simp only [parseAttributesGo, List.mem_append] at hd
    rcases hd with (h1 | h1) | h1
    · obtain ⟨a, t, hloc, -, -, -⟩ :=
        remainingSweep_mem_charloc i f.attrs 0 c d h1
      exact ⟨i, Or.inr ⟨a, hloc⟩, Nat.le_refl i, by simp⟩
    · rcases excludeSweep_mem_charloc i f.attrs 0 _ false d h1 with h2 | h2
      · exact ⟨i, Or.inl h2, Nat.le_refl i, by simp⟩
      · obtain ⟨a, t, hloc, -, -, -⟩ := h2
        exact ⟨i, Or.inr ⟨a, hloc⟩, Nat.le_refl i, by simp⟩
    · obtain ⟨q, hq, hiq, hqlt⟩ :=
        parseAttributesGo_mem_locrange rest (i+1) _ d h1
      refine ⟨q, hq, by omega, by simp; omega⟩

/-- The error list of the field loop decomposes along an append of the
field list. -/
theorem parseAttributesGo_errors_append :
    ∀ (l1 l2 : List Field) (i : Nat) (c : Option Nat),
    (parseAttributesGo i (l1 ++ l2) c).2.2 =
      (parseAttributesGo i l1 c).2.2 ++
        (parseAttributesGo (i + l1.length) l2
          (parseAttributesGo i l1 c).1).2.2
  | [], l2, i, c => by simp [parseAttributesGo]
  | f :: l1, l2, i, c => by
    simp only [List.cons_append, parseAttributesGo, List.append_eq]
    rw [parseAttributesGo_errors_append l1 l2 (i+1)]
    have hidx : i + (f :: l1).length = (i + 1) + l1.length := by
      simp [List.length_cons]
      omega
    rw [hidx]
    simp [List.append_assoc]

/-- The marker of the field loop decomposes along an append of the field
list. -/
theorem parseAttributesGo_fst_append :
    ∀ (l1 l2 : List Field) (i : Nat) (c : Option Nat),
    (parseAttributesGo i (l1 ++ l2) c).1 =
      (parseAttributesGo (i + l1.length) l2 (parseAttributesGo i l1 c).1).1
  | [], l2, i, c => by simp [parseAttributesGo]
  | f :: l1, l2, i, c => by
    simp only [List.cons_append, parseAttributesGo, List.append_eq]
    rw [parseAttributesGo_fst_append l1 l2 (i+1)]
    have hidx : i + (f :: l1).length = (i + 1) + l1.length := by
      simp [List.length_cons]
      omega
    rw [hidx]

/-- Where the "not allowed after" diagnostic arises: the `destroy_ignore`
loop emits it at local attribute index `a` exactly when the attribute there
is a `destroy_ignore` and the marker in scope is `some cc` with `cc ≥ a`. -/
theorem excludeSweep_misorder_mem (f_i : Nat) :
    ∀ (attrs : List Attr) (j : Nat) (c : Option Nat) (b : Bool) (a : Nat),
    ((⟨DiagKind.misorderedIgnore, DiagLoc.onAttr f_i a⟩ : Diagnostic) ∈
        (excludeSweep f_i j attrs c b).2) ↔
      (∃ t, j ≤ a ∧ attrs[a - j]? = some t ∧ t.path = "destroy_ignore" ∧
        ∃ cc, c = some cc ∧ a ≤ cc)
  | [], j, c, b => by simp [excludeSweep]
  | a0 :: rest, j, c, b => by
    have ihtrue := excludeSweep_misorder_mem f_i rest (j+1) c true
    have ihb := excludeSweep_misorder_mem f_i rest (j+1) c b
    intro a
    by_cases h : a0.path = "destroy_ignore"
    · simp only [excludeSweep, h, if_true, List.mem_append]
      constructor
      · intro hd
        rcases hd with ((h1 | h1) | h1) | h1
        · cases c with
          | none => simp at h1
          | some cc =>
            by_cases hc : cc ≥ j
            · simp only [hc, if_true, List.mem_singleton,
                Diagnostic.mk.injEq, DiagLoc.onAttr.injEq] at h1
              obtain ⟨-, -, haj⟩ := h1
              subst haj
              refine ⟨a0, Nat.le_refl a, by simp, h, cc, rfl, hc⟩
            · simp [hc] at h1
        · by_cases hb : b
          · simp [hb] at h1
          · simp [hb] at h1
        · by_cases ha : a0.hasArgs
          · simp [ha] at h1
          · simp [ha] at h1
        · obtain ⟨t, hja, hget, hpath, cc, hceq, hacc⟩ := (ihtrue a).mp h1
          refine ⟨t, by omega, ?_, hpath, cc, hceq, hacc⟩
          have hsub : a - j = (a - (j+1)) + 1 := by omega
          rw [hsub, List.getElem?_cons_succ]
          exact hget
      · rintro ⟨t, hja, hget, hpath, cc, hceq, hacc⟩
        subst hceq
        by_cases haj : a = j
        · subst haj
          have ht : t = a0 := by
            have : a - a = 0 := by omega
            rw [this] at hget
            simpa using hget.symm
          refine Or.inl (Or.inl (Or.inl ?_))
          have hc : cc ≥ a := hacc
          simp [hc]
        · have hja1 : j + 1 ≤ a := by omega
          refine Or.inr ((ihtrue a).mpr ⟨t, hja1, ?_, hpath, cc, rfl, hacc⟩)
          have hsub : a - j = (a - (j+1)) + 1 := by omega
          rw [hsub, List.getElem?_cons_succ] at hget
          exact hget
    · simp only [excludeSweep, h, if_false]
      rw [ihb a]
      constructor
      · rintro ⟨t, hja, hget, hpath, cc, hceq, hacc⟩
        refine ⟨t, by omega, ?_, hpath, cc, hceq, hacc⟩
        have hsub : a - j = (a - (j+1)) + 1 := by omega
        rw [hsub, List.getElem?_cons_succ]
        exact hget
      · rintro ⟨t, hja, hget, hpath, cc, hceq, hacc⟩
        by_cases haj : a = j
        · exfalso
          subst haj
          have : a - a = 0 := by omega
          rw [this] at hget
          have ht : t = a0 := by simpa using hget.symm
          rw [ht] at hpath
          exact h hpath
        · have hja1 : j + 1 ≤ a := by omega
          refine ⟨t, hja1, ?_, hpath, cc, hceq, hacc⟩
          have hsub : a - j = (a - (j+1)) + 1 := by omega
          rw [hsub, List.getElem?_cons_succ] at hget
          exact hget

/-- Record-level membership of the "not allowed after" diagnostic, for the
record split as `pre ++ fl :: post` (the field under scrutiny at position
`pre.length`): the diagnostic sits at the field's local attribute index `a`
exactly when that attribute is a `destroy_ignore` and the marker in scope
after this field's own `destroy_ignore_remaining` loop is at least `a`. -/
theorem misorder_mem_iff_parts (pre post : List Field) (fl : Field) (a : Nat) :
    ((⟨DiagKind.misorderedIgnore, DiagLoc.onAttr pre.length a⟩ : Diagnostic) ∈
        (parse_attributes (pre ++ fl :: post)).2.2) ↔
      (∃ t, fl.attrs[a]? = some t ∧ t.path = "destroy_ignore" ∧
        ∃ c, (remainingSweep pre.length 0 fl.attrs
            (parse_attributes pre).1).1 = some c ∧ a ≤ c) := by
  have h0 : (0:Nat) + pre.length = pre.length := Nat.zero_add pre.length
  rw [parse_attributes, parseAttributesGo_errors_append pre (fl :: post) 0
    none, h0]
  simp only [parseAttributesGo, List.mem_append]
  have hnot1 : ¬ ((⟨DiagKind.misorderedIgnore, DiagLoc.onAttr pre.length a⟩ :
      Diagnostic) ∈ (parseAttributesGo 0 pre none).2.2) := by
    intro hmem
    obtain ⟨q, hq, -, hqlt⟩ :=
      parseAttributesGo_mem_locrange pre 0 none _ hmem
    rcases hq with hq | ⟨a', hq⟩
    · simp at hq
    · simp only [DiagLoc.onAttr.injEq] at hq
      omega
  have hnotr1 : ¬ ((⟨DiagKind.misorderedIgnore, DiagLoc.onAttr pre.length a⟩ :
      Diagnostic) ∈ (remainingSweep pre.length 0 fl.attrs
        (parseAttributesGo 0 pre none).1).2) := by
    intro hmem
    rcases remainingSweep_kinds pre.length fl.attrs 0 _ _ hmem with hk | hk <;>
      simp at hk
  have hnot3 : ¬ ((⟨DiagKind.misorderedIgnore, DiagLoc.onAttr pre.length a⟩ :
      Diagnostic) ∈ (parseAttributesGo (pre.length + 1) post
        (remainingSweep pre.length 0 fl.attrs
          (parseAttributesGo 0 pre none).1).1).2.2) := by
    intro hmem
    obtain ⟨q, hq, hle, -⟩ :=
      parseAttributesGo_mem_locrange post (pre.length + 1) _ _ hmem
    rcases hq with hq | ⟨a', hq⟩
    · simp at hq
    · simp only [DiagLoc.onAttr.injEq] at hq
      omega
  have hchar := excludeSweep_misorder_mem pre.length fl.attrs 0
    (remainingSweep pre.length 0 fl.attrs (parseAttributesGo 0 pre none).1).1
    false a
  constructor
  · intro hmem
    rcases hmem with hmem | (hmem | hmem) | hmem
    · exact absurd hmem hnot1
    · exact absurd hmem hnotr1
    · obtain ⟨t, -, hget, hpath, c, hcut, hac⟩ := hchar.mp hmem
      rw [Nat.sub_zero] at hget
      exact ⟨t, hget, hpath, c, hcut, hac⟩
    · exact absurd hmem hnot3
  · rintro ⟨t, hget, hpath, c, hcut, hac⟩
    refine Or.inr (Or.inl (Or.inr (hchar.mpr ?_)))
    exact ⟨t, Nat.zero_le a, by rwa [Nat.sub_zero], hpath, c, hcut, hac⟩

/-- Record-level membership of the "not allowed after" diagnostic at
position `(f, a)`: the attribute there is a `destroy_ignore`, and the marker
established once the validator has processed fields `0..f`'s
`destroy_ignore_remaining` loops is `some c` with `a ≤ c`. -/
theorem misorder_mem_iff (fields : List Field) (f a : Nat) :
    ((⟨DiagKind.misorderedIgnore, DiagLoc.onAttr f a⟩ : Diagnostic) ∈
        (parse_attributes fields).2.2) ↔
      (∃ fl, fields[f]? = some fl ∧ ∃ t, fl.attrs[a]? = some t ∧
        t.path = "destroy_ignore" ∧
        ∃ c, (parse_attributes (fields.take (f+1))).1 = some c ∧ a ≤ c) := by
  by_cases hf : f < fields.length
  · have hfl : fields[f]? = some fields[f] := List.getElem?_eq_getElem hf
    have hdec : fields = fields.take f ++ fields[f] :: fields.drop (f+1) := by
      conv_lhs => rw [← List.take_append_drop f fields]
      rw [List.drop_eq_getElem_cons hf]
    have htklen : (fields.take f).length = f := by
      simp [List.length_take]
      omega
    have hparts := misorder_mem_iff_parts (fields.take f) (fields.drop (f+1))
      fields[f] a
    rw [htklen, ← hdec] at hparts
    have hmoment : (parse_attributes (fields.take (f+1))).1 =
        (remainingSweep f 0 (fields[f]).attrs
          (parse_attributes (fields.take f)).1).1 := by
      have htk : fields.take (f+1) = fields.take f ++ [fields[f]] := by
        rw [List.take_succ, hfl]
        rfl
      rw [htk, parse_attributes,
        parseAttributesGo_fst_append (fields.take f) [fields[f]] 0 none,
        htklen, Nat.zero_add]
      rfl
    rw [hparts]
    constructor
    · rintro ⟨t, hget, hpath, c, hcut, hac⟩
      exact ⟨fields[f], hfl, t, hget, hpath, c, by rw [hmoment]; exact hcut,
        hac⟩
    · rintro ⟨fl', hfl', t, hget, hpath, c, hcut, hac⟩
      have heq : fl' = fields[f] := by
        rw [hfl] at hfl'
        exact (Option.some.injEq _ _ ▸ hfl').symm
      subst heq
      exact ⟨t, hget, hpath, c, by rw [← hmoment]; exact hcut, hac⟩
  · constructor
    · intro hmem
      obtain ⟨q, hq, -, hqlt⟩ :=
        parseAttributesGo_mem_locrange fields 0 none _ hmem
      rcases hq with hq | ⟨a', hq⟩
      · simp at hq
      · simp only [DiagLoc.onAttr.injEq] at hq
        omega
    · rintro ⟨fl', hfl', -⟩
      have : fields[f]? = none := List.getElem?_eq_none (by omega)
      rw [this] at hfl'
      exact Option.noConfusion hfl'

/-- C3: a `destroy_ignore` annotation occurrence at field `f`, local
attribute index `a`, receives the "not allowed after" diagnostic iff, at the
moment it is checked (i.e. with the marker state after the validator has
processed fields `0..f`), a cutoff marker is established whose field position
`c` satisfies `c ≥ a` — the marker's field position is compared against the
annotation's index within its own field's attribute list. -/
theorem claim3_misorder_rule (fields : List Field) (f a : Nat) (fl : Field)
    (t : Attr) (hfl : fields[f]? = some fl) (hget : fl.attrs[a]? = some t)
    (hpath : t.path = "destroy_ignore") :
    ((⟨DiagKind.misorderedIgnore, DiagLoc.onAttr f a⟩ : Diagnostic) ∈
        (parse_attributes fields).2.2) ↔
      (∃ c, (parse_attributes (fields.take (f+1))).1 = some c ∧ a ≤ c) := by
  rw [misorder_mem_iff]
  constructor
  · rintro ⟨fl', -, t', -, -, c, hcut, hac⟩
    exact ⟨c, hcut, hac⟩
  · rintro ⟨c, hcut, hac⟩
    exact ⟨fl, hfl, t, hget, hpath, c, hcut, hac⟩

/-- Witness for C3: marker on field 0, `destroy_ignore` at (1, 0); the
diagnostic occurs because the marker position 0 ≥ local index 0. -/
theorem claim3_witness :
    ((⟨DiagKind.misorderedIgnore, DiagLoc.onAttr 1 0⟩ : Diagnostic) ∈
        (parse_attributes [⟨some "a", [⟨"destroy_ignore_remaining", false⟩]⟩,
          ⟨some "b", [⟨"destroy_ignore", false⟩]⟩]).2.2) ↔
      (∃ c, (parse_attributes
          (([⟨some "a", [⟨"destroy_ignore_remaining", false⟩]⟩,
            ⟨some "b", [⟨"destroy_ignore", false⟩]⟩] : List Field).take 2)).1
        = some c ∧ 0 ≤ c) :=
  claim3_misorder_rule
    [⟨some "a", [⟨"destroy_ignore_remaining", false⟩]⟩,
      ⟨some "b", [⟨"destroy_ignore", false⟩]⟩]
    1 0 ⟨some "b", [⟨"destroy_ignore", false⟩]⟩ ⟨"destroy_ignore", false⟩
    rfl rfl rfl

/-- Counterexample for C4: field 0 carries a `destroy_ignore` at annotation
index 0 and the sole `destroy_ignore_remaining` sits on field 1.  C4 predicts
the Exclude is checked with the cutoff already established and diagnosed as
misordered; the code processes each field's loops in turn, so the check on
field 0 happens before the marker exists and the record yields no diagnostic
at all. -/
theorem claim4_counterexample :
    (parse_attributes [⟨some "x", [⟨"destroy_ignore", false⟩]⟩,
        ⟨some "y", [⟨"destroy_ignore_remaining", false⟩]⟩]).1 = some 1 ∧
    (parse_attributes [⟨some "x", [⟨"destroy_ignore", false⟩]⟩,
        ⟨some "y", [⟨"destroy_ignore_remaining", false⟩]⟩]).2.2 = [] := by
  constructor <;> rfl

/-- C4 (amended): the validator processes the record in a single pass,
field by field, running each field's `destroy_ignore_remaining` loop and then
its `destroy_ignore` loop before moving on; a cutoff marker on a later field
is therefore not yet established when an earlier field's `destroy_ignore` is
checked, and a record whose field 0 carries a `destroy_ignore` (at any
annotation index) with all `destroy_ignore_remaining` markers on later fields
produces no misordered-exclude diagnostic for field 0. -/
theorem claim4_per_field_pass (fields : List Field) (f0 : Field) (a : Nat)
    (hf0 : fields[0]? = some f0)
    (hnorem : ∀ t ∈ f0.attrs, t.path ≠ "destroy_ignore_remaining") :
    (⟨DiagKind.misorderedIgnore, DiagLoc.onAttr 0 a⟩ : Diagnostic) ∉
      (parse_attributes fields).2.2 := by
  intro hmem
  rw [misorder_mem_iff] at hmem
  obtain ⟨fl, hfl, t, hget, hpath, c, hcut, -⟩ := hmem
  have ht1 : fields.take 1 = [f0] := by
    cases fields with
    | nil => exact Option.noConfusion hf0
    | cons g rest =>
      have : g = f0 := by
        simpa using hf0
      rw [List.take_succ_cons, List.take_zero, this]
  rw [ht1, parse_attributes_cutoff] at hcut
  have hrem : hasRem f0 = false := by
    simp only [hasRem, List.any_eq_false]
    intro t' ht'
    simp [hnorem t' ht']
  rw [firstRemIdx_eq_none [f0] (by simp [hrem])] at hcut
  exact Option.noConfusion hcut

/-- Witness for C4's amended statement, at the counterexample record. -/
theorem claim4_witness :
    (⟨DiagKind.misorderedIgnore, DiagLoc.onAttr 0 0⟩ : Diagnostic) ∉
      (parse_attributes [⟨some "x", [⟨"destroy_ignore", false⟩]⟩,
        ⟨some "y", [⟨"destroy_ignore_remaining", false⟩]⟩]).2.2 :=
  claim4_per_field_pass
    [⟨some "x", [⟨"destroy_ignore", false⟩]⟩,
      ⟨some "y", [⟨"destroy_ignore_remaining", false⟩]⟩]
    ⟨some "x", [⟨"destroy_ignore", false⟩]⟩ 0 rfl (by decide)

/-- Counterexample for C5: an annotation carrying arguments is diagnosed yet
still takes effect.  A sole `destroy_ignore_remaining(args)` on field 0 emits
the "takes no arguments" diagnostic and still records field 0 as the cutoff;
a sole `destroy_ignore(args)` emits its diagnostic and still sets the
`destroy_ignore` flag, so the field is absent from the teardown plan, not
still present as C5 claims. -/
theorem claim5_counterexample :
    (parse_attributes [⟨some "a", [⟨"destroy_ignore_remaining", true⟩]⟩]).2.2
      = [⟨DiagKind.remainingArgs, DiagLoc.onAttr 0 0⟩] ∧
    (parse_attributes [⟨some "a", [⟨"destroy_ignore_remaining", true⟩]⟩]).1
      = some 0 ∧
    (parse_attributes [⟨some "a", [⟨"destroy_ignore", true⟩]⟩]).2.2
      = [⟨DiagKind.ignoreArgs, DiagLoc.onAttr 0 0⟩] ∧
    (parse_attributes [⟨some "a", [⟨"destroy_ignore", true⟩]⟩]).2.1
      = [⟨true⟩] ∧
    FunctionDestroyStmts [⟨some "a", [⟨"destroy_ignore", true⟩]⟩]
      (parse_attributes [⟨some "a", [⟨"destroy_ignore", true⟩]⟩]).2.1
      ((parse_attributes [⟨some "a", [⟨"destroy_ignore", true⟩]⟩]).1.getD 1)
      = [] := by
  refine ⟨rfl, rfl, rfl, rfl, rfl⟩

/-- C5 (amended): only a duplicate `ExcludeFromHere` occurrence is ignored
for synthesis.  An occurrence carrying arguments is diagnosed but still takes
effect: the cutoff marker is the first field carrying any
`destroy_ignore_remaining` attribute, arguments or not, and a field's
`excluded` flag is set exactly when it carries any `destroy_ignore`
attribute, arguments or not. -/
theorem claim5_diagnosed_still_effective (fields : List Field) :
    (parse_attributes fields).1 = firstRemIdx fields ∧
    (parse_attributes fields).2.1 = fields.map (fun f => ⟨hasIgn f⟩) :=
  ⟨parse_attributes_cutoff fields, parse_attributes_table fields⟩

/-- Filtering a field's attribute list to the recognized paths preserves
`hasRem`. -/
theorem anyRem_filter :
    ∀ (l : List Attr),
    (l.filter (fun a => a.path = "destroy_ignore" ||
        a.path = "destroy_ignore_remaining")).any
      (fun a => a.path = "destroy_ignore_remaining") =
    l.any (fun a => a.path = "destroy_ignore_remaining")
  | [] => rfl
  | a :: l => by
    by_cases h1 : a.path = "destroy_ignore" <;>
      by_cases h2 : a.path = "destroy_ignore_remaining" <;>
        simp [List.filter_cons, List.any_cons, h1, h2, anyRem_filter l]

/-- Filtering a field's attribute list to the recognized paths preserves
`hasIgn`. -/
theorem anyIgn_filter :
    ∀ (l : List Attr),
    (l.filter (fun a => a.path = "destroy_ignore" ||
        a.path = "destroy_ignore_remaining")).any
      (fun a => a.path = "destroy_ignore") =
    l.any (fun a => a.path = "destroy_ignore")
  | [] => rfl
  | a :: l => by
    by_cases h1 : a.path = "destroy_ignore" <;>
      by_cases h2 : a.path = "destroy_ignore_remaining" <;>
        simp [List.filter_cons, List.any_cons, h1, h2, anyIgn_filter l]

/-- Dropping unrecognized attributes does not move the first cutoff field. -/
theorem firstRemIdx_eraseOther :
    ∀ (fields : List Field),
    firstRemIdx (eraseOther fields) = firstRemIdx fields
  | [] => rfl
  | f :: rest => by
    have hrem : hasRem ⟨f.ident, f.attrs.filter
        (fun a => a.path = "destroy_ignore" ||
          a.path = "destroy_ignore_remaining")⟩ = hasRem f := by
      simp only [hasRem]
      exact anyRem_filter f.attrs
    have ih : firstRemIdx (rest.map (fun f =>
        (⟨f.ident, f.attrs.filter (fun a => a.path = "destroy_ignore" ||
          a.path = "destroy_ignore_remaining")⟩ : Field))) = firstRemIdx rest :=
      firstRemIdx_eraseOther rest
    simp only [eraseOther, List.map_cons, firstRemIdx, hrem]
    rw [ih]

/-- Diagnostics located on an attribute always point at a `destroy_ignore` or
`destroy_ignore_remaining` occurrence of the corresponding field. -/
theorem parseAttributesGo_onAttr_path :
    ∀ (fields : List Field) (i : Nat) (c : Option Nat),
    ∀ d ∈ (parseAttributesGo i fields c).2.2, ∀ f a,
      d.loc = DiagLoc.onAttr f a →
      i ≤ f ∧ ∃ fl t, fields[f - i]? = some fl ∧ fl.attrs[a]? = some t ∧
        (t.path = "destroy_ignore" ∨ t.path = "destroy_ignore_remaining")
  | [], i, c => by simp [parseAttributesGo]
  | f0 :: rest, i, c => by
    intro d hd f a hloc
    simp only [parseAttributesGo, List.mem_append] at hd
    rcases hd with (h1 | h1) | h1
    · obtain ⟨a', t, hloc', -, hget, hpath⟩ :=
        remainingSweep_mem_charloc i f0.attrs 0 c d h1
      rw [hloc] at hloc'
      simp only [DiagLoc.onAttr.injEq] at hloc'
      obtain ⟨hfi, haa⟩ := hloc'
      subst hfi
      subst haa
      refine ⟨Nat.le_refl f, f0, t, by simp, ?_, Or.inr hpath⟩
      rwa [Nat.sub_zero] at hget
    · rcases excludeSweep_mem_charloc i f0.attrs 0 _ false d h1 with h2 | h2
      · rw [hloc] at h2
        exact absurd h2 (by simp)
      · obtain ⟨a', t, hloc', -, hget, hpath⟩ := h2
        rw [hloc] at hloc'
        simp only [DiagLoc.onAttr.injEq] at hloc'
        obtain ⟨hfi, haa⟩ := hloc'
        subst hfi
        subst haa
        refine ⟨Nat.le_refl f, f0, t, by simp, ?_, Or.inl hpath⟩
        rwa [Nat.sub_zero] at hget
    · obtain ⟨hif, fl, t, hget, hgett, hpath⟩ :=
        parseAttributesGo_onAttr_path rest (i+1) _ d h1 f a hloc
      refine ⟨by omega, fl, t, ?_, hgett, hpath⟩
      have hsub : f - i = (f - (i+1)) + 1 := by omega
      rw [hsub, List.getElem?_cons_succ]
      exact hget

/-- C10: attributes with unrecognized paths are skipped: they are never the
location of a diagnostic, and they have no effect on the cutoff marker, the
attribute table, or the teardown plan — all three coincide with those of the
same record with every unrecognized attribute removed. -/
theorem claim10_unrecognized_skipped (fields : List Field) :
    (parse_attributes (eraseOther fields)).1 = (parse_attributes fields).1 ∧
    (parse_attributes (eraseOther fields)).2.1
      = (parse_attributes fields).2.1 ∧
    FunctionDestroyStmts (eraseOther fields)
        (parse_attributes (eraseOther fields)).2.1
        ((parse_attributes (eraseOther fields)).1.getD
          (eraseOther fields).length) =
      FunctionDestroyStmts fields (parse_attributes fields).2.1
        ((parse_attributes fields).1.getD fields.length) ∧
    (∀ d ∈ (parse_attributes fields).2.2, ∀ f a,
      d.loc = DiagLoc.onAttr f a →
      ∃ fl t, fields[f]? = some fl ∧ fl.attrs[a]? = some t ∧
        (t.path = "destroy_ignore" ∨ t.path = "destroy_ignore_remaining")) := by
  have hcut : (parse_attributes (eraseOther fields)).1
      = (parse_attributes fields).1 := by
    rw [parse_attributes_cutoff, parse_attributes_cutoff]
    exact firstRemIdx_eraseOther fields
  have htab : (parse_attributes (eraseOther fields)).2.1
      = (parse_attributes fields).2.1 := by
    rw [parse_attributes_table, parse_attributes_table, eraseOther,
      List.map_map]
    apply List.map_congr_left
    intro f _
    simp only [Function.comp, hasIgn]
    exact congrArg FieldAttributes.mk (anyIgn_filter f.attrs)
  have hlen : (eraseOther fields).length = fields.length := by
    simp [eraseOther]
  refine ⟨hcut, htab, ?_, ?_⟩
  · rw [FunctionDestroyStmts_eq_filter, FunctionDestroyStmts_eq_filter,
      htab, hcut, hlen]
    congr 1
    rw [eraseOther, List.enum_map, List.filter_map, List.map_map]
    have hfil : fields.enum.filter ((fun p =>
        decide (p.1 < ((parse_attributes fields).1.getD fields.length)) &&
          !((parse_attributes fields).2.1.getD p.1
            default).destroy_ignore) ∘
          Prod.map id (fun f => (⟨f.ident, f.attrs.filter
            (fun a => a.path = "destroy_ignore" ||
              a.path = "destroy_ignore_remaining")⟩ : Field))) =
        fields.enum.filter (fun p =>
          decide (p.1 < ((parse_attributes fields).1.getD fields.length)) &&
            !((parse_attributes fields).2.1.getD p.1
              default).destroy_ignore) := by
      apply List.filter_congr
      intro p _
      simp [Function.comp, Prod.map_fst]
    rw [hfil]
    apply List.map_congr_left
    intro p _
    simp only [Function.comp, Prod.map_fst, Prod.map_snd, id]
    cases h : p.2.ident <;> simp [destroyStmt, h]
  · intro d hd f a hloc
    obtain ⟨-, fl, t, hget, hgett, hpath⟩ :=
      parseAttributesGo_onAttr_path fields 0 none d hd f a hloc
    rw [Nat.sub_zero] at hget
    exact ⟨fl, t, hget, hgett, hpath⟩

/-- Witness for C10: a field with an unrecognized attribute before its
`destroy_ignore`; the cutoff is unchanged by erasing the stranger. -/
theorem claim10_witness :
    (parse_attributes (eraseOther [⟨some "a", [⟨"other", false⟩,
        ⟨"destroy_ignore", false⟩]⟩])).1 =
      (parse_attributes [⟨some "a", [⟨"other", false⟩,
        ⟨"destroy_ignore", false⟩]⟩]).1 :=
  (claim10_unrecognized_skipped [⟨some "a", [⟨"other", false⟩,
    ⟨"destroy_ignore", false⟩]⟩]).1

end AshDestructor
